import Mathlib

/-!
Shallow embedding of the scheduler core of `comlink-worker-pool`
(`packages/comlink-worker-pool/src/WorkerPool.ts`).

The embedding follows the TypeScript source line by line:

* `WorkerMetadata` mirrors the `WorkerMetadata` interface (the opaque
  `worker`/`proxy` handles carry no pool-visible state and are dropped);
  JavaScript numbers that are counted up and down are modelled as `Int`.
* `PoolState` mirrors the mutable private fields of the `WorkerPool` class.
  The source keeps `idle` as an array of object references into `workers`;
  since worker ids are unique, `idle` is modelled as the list of their ids,
  and the `idleTimers` map is modelled as the list of ids owning a timer.
  Two ghost histories, `dispatchLog` (labels of tasks in dispatch order) and
  `settledLog` (labels of tasks whose promise the pool resolved or rejected),
  record the externally visible behaviour; no pool code reads them.
* Each `async` re-entry point of the class (a task settling, a timer firing,
  a crash signal, a new submission, shutdown) is one `PoolEvent`; the
  coordinator is single threaded, so a run of the pool is a fold of
  `applyEvent` over a list of events, starting from the constructor state.
-/

namespace WorkerPool

/-- Mirror of the `WorkerMetadata` interface: per-worker bookkeeping
(`id`, `taskCount`, `createdAt`, `runningTasks`, `markedForTermination`). -/
structure WorkerMetadata where
  id : Nat
  taskCount : Int
  createdAt : Int
  runningTasks : Int
  markedForTermination : Bool
deriving Repr, DecidableEq

/-- Mirror of `WorkerPoolOptions` (only the scheduler-relevant fields; the
worker/proxy factories and the stats callback carry no pool-visible state). -/
structure WorkerPoolOptions where
  size : Int
  workerIdleTimeoutMs : Option Int
  maxTasksPerWorker : Option Int
  maxWorkerLifetimeMs : Option Int
  maxConcurrentTasksPerWorker : Option Int
deriving Repr, DecidableEq

/-- The validated configuration held in the class's private fields after the
constructor ran (`maxConcurrentTasksPerWorker` defaulted via `?? 1`). -/
structure PoolConfig where
  size : Int
  workerIdleTimeoutMs : Option Int
  maxTasksPerWorker : Option Int
  maxWorkerLifetimeMs : Option Int
  maxConcurrentTasksPerWorker : Int
deriving Repr, DecidableEq

/-- Mirror of the mutable private state of the `WorkerPool` class, plus the
two ghost histories `dispatchLog` and `settledLog`. Queued tasks are
identified by a `Nat` label. -/
structure PoolState where
  workers : List WorkerMetadata
  idle : List Nat
  queue : List Nat
  idleTimers : List Nat
  nextWorkerId : Nat
  dispatchLog : List Nat
  settledLog : List Nat
deriving Repr, DecidableEq

/-- Worker metadata as built in `_createWorkerWithCrashHandler`:
fresh id, zero counts, creation timestamp, not marked. -/
def mkWorkerMetadata (id : Nat) (now : Int) : WorkerMetadata :=
  { id := id, taskCount := 0, createdAt := now, runningTasks := 0,
    markedForTermination := false }

/-- State right after the constructor body: no workers, no idle entries,
empty queue, no timers, id counter at 0 (workers are created lazily). -/
def initState : PoolState :=
  { workers := [], idle := [], queue := [], idleTimers := [],
    nextWorkerId := 0, dispatchLog := [], settledLog := [] }

/-- Mirror of the constructor: throw when `options.size < 1`, default the
concurrency ceiling via `?? 1`, throw when it is `< 1`; otherwise succeed
with the validated configuration and the empty initial state. -/
def mkWorkerPool (options : WorkerPoolOptions) :
    Except String (PoolConfig × PoolState) :=
  if options.size < 1 then
    .error "WorkerPool size must be at least 1"
  else
    let mc := options.maxConcurrentTasksPerWorker.getD 1
    if mc < 1 then
      .error "maxConcurrentTasksPerWorker must be at least 1"
    else
      .ok ({ size := options.size,
             workerIdleTimeoutMs := options.workerIdleTimeoutMs,
             maxTasksPerWorker := options.maxTasksPerWorker,
             maxWorkerLifetimeMs := options.maxWorkerLifetimeMs,
             maxConcurrentTasksPerWorker := mc }, initState)

/-- The `for (const worker of this.workers)` scan in `_getAvailableWorker`:
first worker with `runningTasks < maxConcurrentTasksPerWorker` that is not
marked for termination. -/
def findReusable (cfg : PoolConfig) : List WorkerMetadata → Option WorkerMetadata
  | [] => none
  | w :: ws =>
    if w.runningTasks < cfg.maxConcurrentTasksPerWorker ∧
        w.markedForTermination = false then some w
    else findReusable cfg ws

/-- Mirror of `_getAvailableWorker`: reuse the first eligible worker, else
lazily create one (taking the next unique id) while `workers.length < size`,
else report none. Returns the chosen worker's id with the updated state. -/
def getAvailableWorker (cfg : PoolConfig) (now : Int) (s : PoolState) :
    Option Nat × PoolState :=
  match findReusable cfg s.workers with
  | some w => (some w.id, s)
  | none =>
    if (s.workers.length : Int) < cfg.size then
      (some s.nextWorkerId,
        { s with workers := s.workers ++ [mkWorkerMetadata s.nextWorkerId now],
                 nextWorkerId := s.nextWorkerId + 1 })
    else (none, s)

/-- Update every registry entry whose id is `wid` (ids are unique in every
reachable state, so this is the source's in-place mutation of the one found
worker object). -/
def updateWorker (ws : List WorkerMetadata) (wid : Nat)
    (f : WorkerMetadata → WorkerMetadata) : List WorkerMetadata :=
  ws.map fun w => if w.id = wid then f w else w

/-- First registry entry with the given id (`find`/`findIndex` by id). -/
def findWorker (wid : Nat) : List WorkerMetadata → Option WorkerMetadata
  | [] => none
  | w :: ws => if w.id = wid then some w else findWorker wid ws

/-- Index of the first registry entry with the given id
(`this.workers.findIndex((obj) => obj.id === id)`). -/
def findIndexBy (wid : Nat) : List WorkerMetadata → Option Nat
  | [] => none
  | w :: ws => if w.id = wid then some 0 else (findIndexBy wid ws).map (· + 1)

/-- Mirror of `_startIdleTimer`: a falsy `workerIdleTimeoutMs` (unset or 0)
does nothing, otherwise the previous timer for the id is cleared and a fresh
one armed. -/
def startIdleTimerFn (cfg : PoolConfig) (s : PoolState) (wid : Nat) : PoolState :=
  { s with idleTimers :=
      match cfg.workerIdleTimeoutMs with
      | none => s.idleTimers
      | some ms =>
        if ms = 0 then s.idleTimers
        else wid :: s.idleTimers.filter (fun x => x ≠ wid) }

/-- Body of one iteration of the `while` loop in `_next` after a worker was
chosen: shift the head task, increment the worker's `runningTasks`, and if
this was its first concurrent task remove it from `idle` (clearing its idle
timer) when present. The dispatched label is appended to the ghost log. -/
def dispatchTask (s : PoolState) (wid t : Nat) (rest : List Nat) : PoolState :=
  let ws := updateWorker s.workers wid
    (fun w => { w with runningTasks := w.runningTasks + 1 })
  let firstTask : Prop :=
    (∃ w, findWorker wid ws = some w ∧ w.runningTasks = 1) ∧ wid ∈ s.idle
  { s with
    workers := ws
    queue := rest
    dispatchLog := s.dispatchLog ++ [t]
    idle := if firstTask then s.idle.erase wid else s.idle
    idleTimers := if firstTask then s.idleTimers.filter (fun x => x ≠ wid)
                  else s.idleTimers }

instance (s : PoolState) (wid : Nat) (ws : List WorkerMetadata) :
    Decidable ((∃ w, findWorker wid ws = some w ∧ w.runningTasks = 1) ∧ wid ∈ s.idle) := by
  refine decidable_of_iff
    (((findWorker wid ws).any fun w => w.runningTasks = 1) = true ∧ wid ∈ s.idle) ?_
  cases h : findWorker wid ws <;> simp [Option.any, h]

/-- Mirror of the `while` loop in `_next`, with explicit fuel. Every
iteration either breaks (no available worker, or empty queue) or removes
one task from the queue, so `s.queue.length` fuel runs the loop to its
actual exit. -/
def nextLoopFuel (cfg : PoolConfig) (now : Int) : Nat → PoolState → PoolState
  | 0, s => s
  | fuel + 1, s =>
    match s.queue with
    | [] => s
    | t :: rest =>
      match getAvailableWorker cfg now s with
      | (none, _) => s
      | (some wid, s1) => nextLoopFuel cfg now fuel (dispatchTask s1 wid t rest)

/-- Mirror of `_next`: run the dispatch loop until it breaks. -/
def nextLoop (cfg : PoolConfig) (now : Int) (s : PoolState) : PoolState :=
  nextLoopFuel cfg now s.queue.length s

/-- Mirror of `_run` (reached through the `getApi` proxy): push the task at
the tail of the queue, then run the scheduler loop. -/
def submitStep (cfg : PoolConfig) (now : Int) (s : PoolState) (t : Nat) : PoolState :=
  nextLoop cfg now { s with queue := s.queue ++ [t] }

/-- Mirror of `_shouldTerminateWorker`: never for a worker with running
tasks; otherwise when the (truthy) task-count limit or the (truthy)
lifetime limit is reached. -/
def shouldTerminateWorker (cfg : PoolConfig) (now : Int) (w : WorkerMetadata) : Bool :=
  if w.runningTasks > 0 then false
  else if (match cfg.maxTasksPerWorker with
           | none => false
           | some m => m ≠ 0 ∧ w.taskCount ≥ m : Bool) then true
  else match cfg.maxWorkerLifetimeMs with
       | none => false
       | some ms => ms ≠ 0 ∧ now - w.createdAt ≥ ms

/-- Mirror of the `.finally` block of `executeTask` in `_next`, up to (not
including) its trailing `_next()` call, for the found worker object `w`:
decrement `runningTasks`, increment `taskCount`, then either mark the
worker for termination (the actual destruction is a deferred timer) or,
when it is now idle, push it on the idle list and arm its idle timer. The
settled label is appended to the ghost log. -/
def completeFinally (cfg : PoolConfig) (now : Int) (s : PoolState)
    (wid t : Nat) (w : WorkerMetadata) : PoolState :=
  let w1 : WorkerMetadata :=
    { w with runningTasks := w.runningTasks - 1, taskCount := w.taskCount + 1 }
  let s1 := { s with
    workers := updateWorker s.workers wid
      (fun u => { u with runningTasks := u.runningTasks - 1,
                         taskCount := u.taskCount + 1 }),
    settledLog := s.settledLog ++ [t] }
  if shouldTerminateWorker cfg now w1 then
    { s1 with workers := (updateWorker s1.workers wid
        (fun u => { u with markedForTermination := true })) }
  else if w1.runningTasks = 0 then
    startIdleTimerFn cfg { s1 with idle := s1.idle ++ [wid] } wid
  else s1

/-- A task settling on a worker that is still in the registry. The guard is
the real-world possibility condition: a registry worker has a pending
`.finally` exactly when its `runningTasks` is at least 1, and only
previously dispatched labels can settle. After the `.finally` body the
source re-runs `_next`. -/
def completeStep (cfg : PoolConfig) (now : Int) (s : PoolState) (wid t : Nat) :
    PoolState :=
  match findWorker wid s.workers with
  | none => s
  | some w =>
    if 1 ≤ w.runningTasks ∧ t ∈ s.dispatchLog then
      nextLoop cfg now (completeFinally cfg now s wid t w)
    else s

/-- A task settling on a stale worker object that a crash replacement
removed from the registry. Its `.finally` mutates only the stale object,
but can push that object onto the idle list, arm a timer for it, and
re-runs `_next`; the settled label joins the ghost log. -/
def staleCompleteStep (cfg : PoolConfig) (now : Int) (s : PoolState)
    (wid t : Nat) : PoolState :=
  if (findWorker wid s.workers).isSome ∨ t ∉ s.dispatchLog then s
  else
    nextLoop cfg now
      (startIdleTimerFn cfg
        { s with settledLog := s.settledLog ++ [t], idle := s.idle ++ [wid] } wid)

/-- Mirror of `_terminateWorker`: locate the worker by id; a worker with
running tasks is left untouched; otherwise it is removed from `idle`,
spliced out of the registry, and its idle timer is cleared. -/
def terminateWorkerFn (s : PoolState) (wid : Nat) : PoolState :=
  match findIndexBy wid s.workers with
  | none => s
  | some idx =>
    match s.workers[idx]? with
    | none => s
    | some w =>
      if w.runningTasks > 0 then s
      else
        { s with idle := s.idle.filter (fun x => x ≠ wid),
                 workers := s.workers.eraseIdx idx,
                 idleTimers := s.idleTimers.filter (fun x => x ≠ wid) }

/-- A pending timer firing (idle timeout, or the deferred termination of a
marked worker): both timer callbacks call `_terminateWorker` and refresh
stats, without re-running the scheduler loop. -/
def timerFireStep (s : PoolState) (wid : Nat) : PoolState :=
  terminateWorkerFn s wid

/-- Mirror of `handleCrash` in `_createWorkerWithCrashHandler`: drop the
failed worker from `idle`; if it is still in the registry, overwrite its
slot with a freshly created worker (next unique id), push the replacement
on the idle list, and re-run the scheduler loop. -/
def crashStep (cfg : PoolConfig) (now : Int) (s : PoolState) (wid : Nat) :
    PoolState :=
  let s0 := { s with idle := s.idle.filter (fun x => x ≠ wid) }
  match findIndexBy wid s0.workers with
  | none => s0
  | some idx =>
    nextLoop cfg now
      { s0 with nextWorkerId := s0.nextWorkerId + 1,
                workers := s0.workers.set idx (mkWorkerMetadata s0.nextWorkerId now),
                idle := s0.idle ++ [s0.nextWorkerId] }

/-- Mirror of `terminateAll`: every worker is terminated unconditionally,
all idle timers are cancelled, and the registry, idle list and queue are
cleared. The id counter and the ghost histories persist. -/
def terminateAllStep (s : PoolState) : PoolState :=
  { s with workers := [], idle := [], queue := [], idleTimers := [] }

/-- Mirror of `WorkerPoolStats` with `Int` fields. -/
structure WorkerPoolStats where
  size : Int
  available : Int
  queue : Int
  workers : Int
  idleWorkers : Int
  runningTasks : Int
  availableForConcurrency : Int
deriving Repr, DecidableEq

/-- Mirror of `getStats`: total running tasks, workers below the concurrency
ceiling, and `available` as that count plus the unused creation headroom. -/
def getStats (cfg : PoolConfig) (s : PoolState) : WorkerPoolStats :=
  let runningTasks := (s.workers.map (fun w => w.runningTasks)).sum
  let availableForConcurrency : Int :=
    ((s.workers.filter
      (fun w => decide (w.runningTasks < cfg.maxConcurrentTasksPerWorker))).length : Int)
  let available := availableForConcurrency + (cfg.size - (s.workers.length : Int))
  { size := cfg.size,
    available := available,
    queue := (s.queue.length : Int),
    workers := (s.workers.length : Int),
    idleWorkers := (s.idle.length : Int),
    runningTasks := runningTasks,
    availableForConcurrency := availableForConcurrency }

/-- Asynchronous re-entry points of the coordinator: a submission through
the call proxy, a task settling (on a live or a stale worker), a timer
firing, a crash signal, and pool shutdown. -/
inductive PoolEvent where
  | submit (t : Nat) (now : Int)
  | complete (wid t : Nat) (now : Int)
  | staleComplete (wid t : Nat) (now : Int)
  | timerFire (wid : Nat)
  | crash (wid : Nat) (now : Int)
  | terminateAllEv
deriving Repr, DecidableEq

/-- Single-threaded event dispatch of the coordinator. -/
def applyEvent (cfg : PoolConfig) (s : PoolState) : PoolEvent → PoolState
  | .submit t now => submitStep cfg now s t
  | .complete wid t now => completeStep cfg now s wid t
  | .staleComplete wid t now => staleCompleteStep cfg now s wid t
  | .timerFire wid => timerFireStep s wid
  | .crash wid now => crashStep cfg now s wid
  | .terminateAllEv => terminateAllStep s

/-- Run a list of events from a given state. -/
def runFrom (cfg : PoolConfig) (s : PoolState) (evs : List PoolEvent) : PoolState :=
  evs.foldl (applyEvent cfg) s

/-- The label a submission event enqueues, if any. -/
def submitLabel : PoolEvent → Option Nat
  | .submit t _ => some t
  | _ => none

/-- States the pool can be in after some sequence of events from the
constructor state. -/
def Reachable (cfg : PoolConfig) (s : PoolState) : Prop :=
  ∃ evs : List PoolEvent, runFrom cfg initState evs = s

/-- Configurations the constructor accepts. -/
def validCfg (cfg : PoolConfig) : Prop :=
  1 ≤ cfg.size ∧ 1 ≤ cfg.maxConcurrentTasksPerWorker

instance (cfg : PoolConfig) : Decidable (validCfg cfg) :=
  inferInstanceAs (Decidable (_ ∧ _))

/-! Field computation lemmas for the single transition functions. -/

theorem dispatchTask_queue (s : PoolState) (wid t : Nat) (rest : List Nat) :
    (dispatchTask s wid t rest).queue = rest := rfl

theorem dispatchTask_dispatchLog (s : PoolState) (wid t : Nat) (rest : List Nat) :
    (dispatchTask s wid t rest).dispatchLog = s.dispatchLog ++ [t] := rfl

theorem dispatchTask_settledLog (s : PoolState) (wid t : Nat) (rest : List Nat) :
    (dispatchTask s wid t rest).settledLog = s.settledLog := rfl

theorem dispatchTask_workers (s : PoolState) (wid t : Nat) (rest : List Nat) :
    (dispatchTask s wid t rest).workers =
      updateWorker s.workers wid
        (fun w => { w with runningTasks := w.runningTasks + 1 }) := rfl

theorem dispatchTask_nextWorkerId (s : PoolState) (wid t : Nat) (rest : List Nat) :
    (dispatchTask s wid t rest).nextWorkerId = s.nextWorkerId := rfl

theorem updateWorker_length (ws : List WorkerMetadata) (wid : Nat)
    (f : WorkerMetadata → WorkerMetadata) :
    (updateWorker ws wid f).length = ws.length := by
  simp [updateWorker]

/-- Case analysis for a successful `_getAvailableWorker` call. -/
theorem getAvailableWorker_eq_some {cfg : PoolConfig} {now : Int} {s s1 : PoolState}
    {wid : Nat} (h : getAvailableWorker cfg now s = (some wid, s1)) :
    (∃ w, findReusable cfg s.workers = some w ∧ wid = w.id ∧ s1 = s) ∨
    (findReusable cfg s.workers = none ∧ (s.workers.length : Int) < cfg.size ∧
      wid = s.nextWorkerId ∧
      s1 = { s with workers := s.workers ++ [mkWorkerMetadata s.nextWorkerId now],
                    nextWorkerId := s.nextWorkerId + 1 }) := by
  cases hf : findReusable cfg s.workers with
  | some w =>
    simp only [getAvailableWorker, hf, Prod.mk.injEq, Option.some.injEq] at h
    exact Or.inl ⟨w, rfl, h.1.symm, h.2.symm⟩
  | none =>
    simp only [getAvailableWorker, hf] at h
    by_cases hlt : (s.workers.length : Int) < cfg.size
    · rw [if_pos hlt] at h
      simp only [Prod.mk.injEq, Option.some.injEq] at h
      exact Or.inr ⟨rfl, hlt, h.1.symm, h.2.symm⟩
    · rw [if_neg hlt] at h
      simp at h

/-- Case analysis for a failed `_getAvailableWorker` call. -/
theorem getAvailableWorker_eq_none {cfg : PoolConfig} {now : Int} {s s1 : PoolState}
    (h : getAvailableWorker cfg now s = (none, s1)) :
    findReusable cfg s.workers = none ∧
      ¬ (s.workers.length : Int) < cfg.size ∧ s1 = s := by
  cases hf : findReusable cfg s.workers with
  | some w => simp only [getAvailableWorker, hf, Prod.mk.injEq] at h; simp at h
  | none =>
    simp only [getAvailableWorker, hf] at h
    by_cases hlt : (s.workers.length : Int) < cfg.size
    · rw [if_pos hlt] at h
      simp at h
    · rw [if_neg hlt] at h
      simp only [Prod.mk.injEq] at h
      exact ⟨rfl, hlt, h.2.symm⟩

/-- The available-worker scan never touches the queue, the ghost logs, the
idle bookkeeping or the id counter beyond a possible increment. -/
theorem getAvailableWorker_frame {cfg : PoolConfig} {now : Int} {s s1 : PoolState}
    {o : Option Nat} (h : getAvailableWorker cfg now s = (o, s1)) :
    s1.queue = s.queue ∧ s1.dispatchLog = s.dispatchLog ∧
      s1.settledLog = s.settledLog ∧ s1.idle = s.idle ∧
      s1.idleTimers = s.idleTimers := by
  cases hf : findReusable cfg s.workers with
  | some w =>
    simp only [getAvailableWorker, hf, Prod.mk.injEq] at h
    rw [← h.2]
    exact ⟨rfl, rfl, rfl, rfl, rfl⟩
  | none =>
    simp only [getAvailableWorker, hf] at h
    by_cases hlt : (s.workers.length : Int) < cfg.size
    · rw [if_pos hlt] at h
      simp only [Prod.mk.injEq] at h
      rw [← h.2]
      exact ⟨rfl, rfl, rfl, rfl, rfl⟩
    · rw [if_neg hlt] at h
      simp only [Prod.mk.injEq] at h
      rw [← h.2]
      exact ⟨rfl, rfl, rfl, rfl, rfl⟩

theorem findReusable_some {cfg : PoolConfig} :
    ∀ {ws : List WorkerMetadata} {w : WorkerMetadata},
      findReusable cfg ws = some w →
      w ∈ ws ∧ w.runningTasks < cfg.maxConcurrentTasksPerWorker ∧
        w.markedForTermination = false
  | [], _, h => by simp [findReusable] at h
  | u :: ws, w, h => by
    by_cases hc : u.runningTasks < cfg.maxConcurrentTasksPerWorker ∧
        u.markedForTermination = false
    · rw [findReusable, if_pos hc] at h
      cases h
      exact ⟨List.mem_cons_self _ _, hc⟩
    · rw [findReusable, if_neg hc] at h
      obtain ⟨h1, h2⟩ := findReusable_some h
      exact ⟨List.mem_cons_of_mem _ h1, h2⟩

theorem findWorker_some : ∀ {ws : List WorkerMetadata} {wid : Nat}
    {w : WorkerMetadata}, findWorker wid ws = some w → w ∈ ws ∧ w.id = wid
  | [], _, _, h => by simp [findWorker] at h
  | u :: ws, wid, w, h => by
    by_cases hc : u.id = wid
    · rw [findWorker, if_pos hc] at h
      cases h
      exact ⟨List.mem_cons_self _ _, hc⟩
    · rw [findWorker, if_neg hc] at h
      obtain ⟨h1, h2⟩ := findWorker_some h
      exact ⟨List.mem_cons_of_mem _ h1, h2⟩

theorem findIndexBy_some : ∀ {ws : List WorkerMetadata} {wid : Nat} {i : Nat},
    findIndexBy wid ws = some i →
    ∃ w, ws[i]? = some w ∧ w.id = wid
  | [], _, _, h => by simp [findIndexBy] at h
  | u :: ws, wid, i, h => by
    by_cases hc : u.id = wid
    · rw [findIndexBy, if_pos hc] at h
      cases h
      exact ⟨u, by simp, hc⟩
    · rw [findIndexBy, if_neg hc] at h
      cases hr : findIndexBy wid ws with
      | none => rw [hr] at h; exact absurd h (by simp)
      | some j =>
        rw [hr] at h
        simp only [Option.map_some', Option.some.injEq] at h
        obtain ⟨w, hw, hid⟩ := findIndexBy_some hr
        exact ⟨w, by rw [← h]; simpa using hw, hid⟩

theorem findIndexBy_of_mem : ∀ {ws : List WorkerMetadata} {wid : Nat},
    wid ∈ ws.map (fun w => w.id) → ∃ i, findIndexBy wid ws = some i
  | [], _, h => by simp at h
  | u :: ws, wid, h => by
    by_cases hc : u.id = wid
    · exact ⟨0, by rw [findIndexBy, if_pos hc]⟩
    · simp only [List.map_cons, List.mem_cons] at h
      rcases h with h | h
      · exact absurd h.symm hc
      · obtain ⟨i, hi⟩ := findIndexBy_of_mem h
        exact ⟨i + 1, by rw [findIndexBy, if_neg hc, hi]; rfl⟩

/-- The dispatch loop takes some prefix of the queue, dispatches it in
order, and leaves the corresponding suffix queued; it never settles a task. -/
theorem nextLoopFuel_fifo (cfg : PoolConfig) (now : Int) :
    ∀ (fuel : Nat) (s : PoolState), ∃ k,
      (nextLoopFuel cfg now fuel s).dispatchLog = s.dispatchLog ++ s.queue.take k ∧
      (nextLoopFuel cfg now fuel s).queue = s.queue.drop k ∧
      (nextLoopFuel cfg now fuel s).settledLog = s.settledLog
  | 0, s => ⟨0, by simp [nextLoopFuel]⟩
  | fuel + 1, s => by
    rw [nextLoopFuel]
    cases hq : s.queue with
    | nil => exact ⟨0, by simp [hq]⟩
    | cons t rest =>
      cases hg : getAvailableWorker cfg now s with
      | mk o s1 =>
        cases o with
        | none => exact ⟨0, by simp [hq]⟩
        | some wid =>
          obtain ⟨k, h1, h2, h3⟩ := nextLoopFuel_fifo cfg now fuel (dispatchTask s1 wid t rest)
          obtain ⟨hfq, hfd, hfs, _, _⟩ := getAvailableWorker_frame hg
          refine ⟨k + 1, ?_, ?_, ?_⟩
          · rw [h1, dispatchTask_dispatchLog, dispatchTask_queue, hfd,
              List.take_succ_cons, List.append_assoc]
            rfl
          · rw [h2, dispatchTask_queue, List.drop_succ_cons]
          · rw [h3, dispatchTask_settledLog, hfs]

/-- Specialization of the loop lemma to `_next`. -/
theorem nextLoop_fifo (cfg : PoolConfig) (now : Int) (s : PoolState) : ∃ k,
    (nextLoop cfg now s).dispatchLog = s.dispatchLog ++ s.queue.take k ∧
    (nextLoop cfg now s).queue = s.queue.drop k ∧
    (nextLoop cfg now s).settledLog = s.settledLog :=
  nextLoopFuel_fifo cfg now s.queue.length s

/-! The state invariant maintained by every event, and its preservation. -/

/-- Invariant of every reachable pool state: running-task counts stay inside
the concurrency ceiling, worker ids are unique and below the id counter, a
worker marked for termination has no running tasks, and the pool only ever
settled tasks it dispatched. -/
structure Inv (cfg : PoolConfig) (s : PoolState) : Prop where
  bounds : ∀ w ∈ s.workers,
    0 ≤ w.runningTasks ∧ w.runningTasks ≤ cfg.maxConcurrentTasksPerWorker
  nodupIds : (s.workers.map (fun w => w.id)).Nodup
  fresh : ∀ w ∈ s.workers, w.id < s.nextWorkerId
  markedZero : ∀ w ∈ s.workers, w.markedForTermination = true → w.runningTasks = 0
  settledSub : ∀ t ∈ s.settledLog, t ∈ s.dispatchLog

theorem nodup_id_unique {ws : List WorkerMetadata}
    (h : (ws.map (fun w => w.id)).Nodup) {u v : WorkerMetadata}
    (hu : u ∈ ws) (hv : v ∈ ws) (hid : u.id = v.id) : u = v := by
  induction ws with
  | nil => cases hu
  | cons a l ih =>
    simp only [List.map_cons, List.nodup_cons] at h
    rcases List.mem_cons.mp hu with rfl | hu' <;>
      rcases List.mem_cons.mp hv with rfl | hv'
    · rfl
    · exact absurd (by rw [hid]; exact List.mem_map_of_mem _ hv') h.1
    · exact absurd (by rw [← hid]; exact List.mem_map_of_mem _ hu') h.1
    · exact ih h.2 hu' hv'

theorem updateWorker_map_id (ws : List WorkerMetadata) (wid : Nat)
    (f : WorkerMetadata → WorkerMetadata) (hf : ∀ w, (f w).id = w.id) :
    (updateWorker ws wid f).map (fun w => w.id) = ws.map (fun w => w.id) := by
  unfold updateWorker
  rw [List.map_map]
  refine List.map_congr_left fun a _ => ?_
  by_cases hc : a.id = wid <;> simp [Function.comp, hc, hf]

theorem mem_updateWorker {ws : List WorkerMetadata} {wid : Nat}
    {f : WorkerMetadata → WorkerMetadata} {u : WorkerMetadata}
    (h : u ∈ updateWorker ws wid f) :
    ∃ v ∈ ws, u = if v.id = wid then f v else v := by
  obtain ⟨v, hv, hvu⟩ := List.mem_map.mp h
  exact ⟨v, hv, hvu.symm⟩

theorem findWorker_updateWorker (ws : List WorkerMetadata) (wid : Nat)
    (f : WorkerMetadata → WorkerMetadata) (hf : ∀ w, (f w).id = w.id) :
    findWorker wid (updateWorker ws wid f) = (findWorker wid ws).map f := by
  induction ws with
  | nil => rfl
  | cons a l ih =>
    show findWorker wid ((if a.id = wid then f a else a) :: updateWorker l wid f) =
      (findWorker wid (a :: l)).map f
    by_cases hc : a.id = wid
    · rw [if_pos hc, findWorker, if_pos (by rw [hf]; exact hc), findWorker, if_pos hc]
      rfl
    · rw [if_neg hc, findWorker, if_neg hc, findWorker, if_neg hc, ih]

/-- The nodup-ids helper for crash replacement: overwriting any slot with a
fresh id keeps the id list duplicate free. -/
theorem nodup_set_of_not_mem : ∀ {l : List Nat} {i a : Nat},
    l.Nodup → a ∉ l → (l.set i a).Nodup
  | [], _, _, _, _ => by simp
  | b :: l, 0, a, hnd, hna => by
    rw [List.set_cons_zero]
    rw [List.nodup_cons] at hnd ⊢
    exact ⟨fun h => hna (List.mem_cons_of_mem _ h), hnd.2⟩
  | b :: l, i + 1, a, hnd, hna => by
    rw [List.set_cons_succ]
    rw [List.nodup_cons] at hnd ⊢
    refine ⟨fun h => ?_, nodup_set_of_not_mem hnd.2 fun h => hna (List.mem_cons_of_mem _ h)⟩
    rcases List.mem_or_eq_of_mem_set h with h' | h'
    · exact hnd.1 h'
    · exact hna (by rw [← h']; exact List.mem_cons_self _ _)

/-- A successful `_getAvailableWorker` call preserves the invariant and
returns a worker below the concurrency ceiling that is not marked for
termination; every registry entry carrying the chosen id satisfies this. -/
theorem getAvailableWorker_props {cfg : PoolConfig} {now : Int}
    {s s1 : PoolState} {wid : Nat} (hv : validCfg cfg) (hI : Inv cfg s)
    (h : getAvailableWorker cfg now s = (some wid, s1)) :
    Inv cfg s1 ∧
    (∀ u ∈ s1.workers, u.id = wid →
      u.runningTasks < cfg.maxConcurrentTasksPerWorker ∧
        u.markedForTermination = false) ∧
    (∃ w ∈ s1.workers, w.id = wid ∧
      w.runningTasks < cfg.maxConcurrentTasksPerWorker ∧
      w.markedForTermination = false) := by
  rcases getAvailableWorker_eq_some h with ⟨w, hf, rfl, rfl⟩ | ⟨hf, hlt, rfl, rfl⟩
  · obtain ⟨hmem, hrun, hmk⟩ := findReusable_some hf
    refine ⟨hI, fun u hu hid => ?_, ⟨w, hmem, rfl, hrun, hmk⟩⟩
    have : u = w := nodup_id_unique hI.nodupIds hu hmem hid
    subst this
    exact ⟨hrun, hmk⟩
  · have hmax : (0 : Int) < cfg.maxConcurrentTasksPerWorker :=
      lt_of_lt_of_le zero_lt_one hv.2
    have hfreshId : s.nextWorkerId ∉ s.workers.map (fun w => w.id) := by
      intro hmem
      obtain ⟨w, hw, hwid⟩ := List.mem_map.mp hmem
      exact absurd hwid (Nat.ne_of_lt (hI.fresh w hw))
    refine ⟨⟨?_, ?_, ?_, ?_, hI.settledSub⟩, fun u hu hid => ?_, ?_⟩
    · intro w hw
      rcases List.mem_append.mp hw with hw' | hw'
      · exact hI.bounds w hw'
      · simp only [List.mem_singleton] at hw'
        subst hw'
        exact ⟨le_refl 0, le_of_lt hmax⟩
    · rw [List.map_append]
      simp only [List.map_cons, List.map_nil]
      rw [List.nodup_append]
      refine ⟨hI.nodupIds, List.nodup_singleton _, ?_⟩
      intro a ha hb
      simp only [List.mem_singleton] at hb
      subst hb
      exact hfreshId ha
    · intro w hw
      rcases List.mem_append.mp hw with hw' | hw'
      · exact Nat.lt_succ_of_lt (hI.fresh w hw')
      · simp only [List.mem_singleton] at hw'
        subst hw'
        exact Nat.lt_succ_self _
    · intro w hw hm
      rcases List.mem_append.mp hw with hw' | hw'
      · exact hI.markedZero w hw' hm
      · simp only [List.mem_singleton] at hw'
        subst hw'
        rfl
    · rcases List.mem_append.mp hu with hu' | hu'
      · exact absurd hid (Nat.ne_of_lt (hI.fresh u hu'))
      · simp only [List.mem_singleton] at hu'
        subst hu'
        exact ⟨hmax, rfl⟩
    · exact ⟨mkWorkerMetadata s.nextWorkerId now,
        List.mem_append_right _ (List.mem_singleton_self _), rfl, hmax, rfl⟩

/-- Dispatching the head task to the chosen worker preserves the invariant. -/
theorem dispatchTask_inv {cfg : PoolConfig} {s1 : PoolState} {wid : Nat}
    (t : Nat) (rest : List Nat) (hI : Inv cfg s1)
    (hsel : ∀ u ∈ s1.workers, u.id = wid →
      u.runningTasks < cfg.maxConcurrentTasksPerWorker ∧
        u.markedForTermination = false) :
    Inv cfg (dispatchTask s1 wid t rest) := by
  refine ⟨?_, ?_, ?_, ?_, ?_⟩
  · intro u hu
    rw [dispatchTask_workers] at hu
    obtain ⟨v, hv, rfl⟩ := mem_updateWorker hu
    by_cases hc : v.id = wid
    · rw [if_pos hc]
      have h1 := (hsel v hv hc).1
      have h0 := (hI.bounds v hv).1
      exact ⟨by simp; omega, by simp; omega⟩
    · rw [if_neg hc]
      exact hI.bounds v hv
  · rw [dispatchTask_workers, updateWorker_map_id s1.workers wid
      (fun w => { w with runningTasks := w.runningTasks + 1 }) (fun w => rfl)]
    exact hI.nodupIds
  · intro u hu
    rw [dispatchTask_workers] at hu
    obtain ⟨v, hv, rfl⟩ := mem_updateWorker hu
    have hlt := hI.fresh v hv
    rw [dispatchTask_nextWorkerId]
    by_cases hc : v.id = wid
    · rw [if_pos hc]
      exact hlt
    · rw [if_neg hc]
      exact hlt
  · intro u hu hm
    rw [dispatchTask_workers] at hu
    obtain ⟨v, hv, rfl⟩ := mem_updateWorker hu
    by_cases hc : v.id = wid
    · rw [if_pos hc] at hm ⊢
      have hmk := (hsel v hv hc).2
      simp only at hm
      rw [hmk] at hm
      cases hm
    · rw [if_neg hc] at hm ⊢
      exact hI.markedZero v hv hm
  · intro t' ht'
    rw [dispatchTask_settledLog] at ht'
    rw [dispatchTask_dispatchLog]
    exact List.mem_append_left _ (hI.settledSub t' ht')

/-- The dispatch loop preserves the invariant. -/
theorem nextLoopFuel_inv (cfg : PoolConfig) (now : Int) (hv : validCfg cfg) :
    ∀ (fuel : Nat) (s : PoolState), Inv cfg s → Inv cfg (nextLoopFuel cfg now fuel s)
  | 0, _, hI => hI
  | fuel + 1, s, hI => by
    rw [nextLoopFuel]
    cases hq : s.queue with
    | nil => exact hI
    | cons t rest =>
      cases hg : getAvailableWorker cfg now s with
      | mk o s1 =>
        cases o with
        | none => exact hI
        | some wid =>
          obtain ⟨hI1, hsel, _⟩ := getAvailableWorker_props hv hI hg
          exact nextLoopFuel_inv cfg now hv fuel _ (dispatchTask_inv t rest hI1 hsel)

theorem nextLoop_inv {cfg : PoolConfig} {now : Int} {s : PoolState}
    (hv : validCfg cfg) (hI : Inv cfg s) : Inv cfg (nextLoop cfg now s) :=
  nextLoopFuel_inv cfg now hv s.queue.length s hI

theorem startIdleTimerFn_inv {cfg : PoolConfig} {s : PoolState} {wid : Nat}
    (hI : Inv cfg s) : Inv cfg (startIdleTimerFn cfg s wid) :=
  ⟨hI.bounds, hI.nodupIds, hI.fresh, hI.markedZero, hI.settledSub⟩

theorem shouldTerminate_notRunning {cfg : PoolConfig} {now : Int}
    {u : WorkerMetadata} (h : shouldTerminateWorker cfg now u = true) :
    ¬ u.runningTasks > 0 := by
  intro hr
  rw [shouldTerminateWorker, if_pos hr] at h
  cases h

/-- In a duplicate-free registry, an entry of `updateWorker ws wid f`
carrying the id `wid` is the image under `f` of the worker found by id. -/
theorem updateWorker_of_id {ws : List WorkerMetadata} {wid : Nat}
    {f : WorkerMetadata → WorkerMetadata} (hf : ∀ v, (f v).id = v.id)
    (hnd : (ws.map (fun w => w.id)).Nodup) {w : WorkerMetadata}
    (hw : findWorker wid ws = some w) {u : WorkerMetadata}
    (hu : u ∈ updateWorker ws wid f) (hid : u.id = wid) : u = f w := by
  obtain ⟨v, hv, hu'⟩ := mem_updateWorker hu
  by_cases hc : v.id = wid
  · rw [if_pos hc] at hu'
    obtain ⟨hwmem, hwid⟩ := findWorker_some hw
    have : v = w := nodup_id_unique hnd hv hwmem (hc.trans hwid.symm)
    rw [hu', this]
  · rw [if_neg hc] at hu'
    rw [hu'] at hid
    exact absurd hid hc

/-- The `.finally` bookkeeping of a settling task preserves the invariant. -/
theorem completeFinally_inv {cfg : PoolConfig} {now : Int} {s : PoolState}
    {wid t : Nat} {w : WorkerMetadata} (hI : Inv cfg s)
    (hw : findWorker wid s.workers = some w) (hrun : 1 ≤ w.runningTasks)
    (ht : t ∈ s.dispatchLog) : Inv cfg (completeFinally cfg now s wid t w) := by
  obtain ⟨hwmem, hwid⟩ := findWorker_some hw
  have hdec : ∀ v : WorkerMetadata,
      ({ v with runningTasks := v.runningTasks - 1,
                taskCount := v.taskCount + 1 } : WorkerMetadata).id = v.id :=
    fun _ => rfl
  have hInv1 : Inv cfg { s with
      workers := updateWorker s.workers wid
        (fun u => { u with runningTasks := u.runningTasks - 1,
                           taskCount := u.taskCount + 1 }),
      settledLog := s.settledLog ++ [t] } := by
    refine ⟨?_, ?_, ?_, ?_, ?_⟩
    · intro u hu
      obtain ⟨v, hv, rfl⟩ := mem_updateWorker hu
      by_cases hc : v.id = wid
      · rw [if_pos hc]
        have hvw : v = w := nodup_id_unique hI.nodupIds hv hwmem (hc.trans hwid.symm)
        subst hvw
        have := hI.bounds v hv
        exact ⟨by simp; omega, by simp; omega⟩
      · rw [if_neg hc]
        exact hI.bounds v hv
    · rw [updateWorker_map_id s.workers wid _ hdec]
      exact hI.nodupIds
    · intro u hu
      obtain ⟨v, hv, rfl⟩ := mem_updateWorker hu
      have := hI.fresh v hv
      by_cases hc : v.id = wid
      · rw [if_pos hc]
        exact this
      · rw [if_neg hc]
        exact this
    · intro u hu hm
      obtain ⟨v, hv, rfl⟩ := mem_updateWorker hu
      by_cases hc : v.id = wid
      · rw [if_pos hc] at hm ⊢
        have hvw : v = w := nodup_id_unique hI.nodupIds hv hwmem (hc.trans hwid.symm)
        subst hvw
        simp only at hm
        have := hI.markedZero v hv hm
        omega
      · rw [if_neg hc] at hm ⊢
        exact hI.markedZero v hv hm
    · intro t' ht'
      rcases List.mem_append.mp ht' with h' | h'
      · exact hI.settledSub t' h'
      · simp only [List.mem_singleton] at h'
        subst h'
        exact ht
  simp only [completeFinally]
  split
  · next hterm =>
    have hw1run : w.runningTasks - 1 = 0 := by
      have := shouldTerminate_notRunning hterm
      simp only at this
      omega
    have hfind1 : findWorker wid (updateWorker s.workers wid
        (fun u => { u with runningTasks := u.runningTasks - 1,
                           taskCount := u.taskCount + 1 })) =
        some { w with runningTasks := w.runningTasks - 1,
                      taskCount := w.taskCount + 1 } := by
      rw [findWorker_updateWorker s.workers wid _ hdec, hw]
      rfl
    refine ⟨?_, ?_, ?_, ?_, ?_⟩
    · intro u hu
      obtain ⟨v, hv, rfl⟩ := mem_updateWorker hu
      have := hInv1.bounds v hv
      by_cases hc : v.id = wid
      · rw [if_pos hc]
        exact this
      · rw [if_neg hc]
        exact this
    · rw [updateWorker_map_id _ wid
        (fun u => { u with markedForTermination := true }) (fun _ => rfl)]
      exact hInv1.nodupIds
    · intro u hu
      obtain ⟨v, hv, rfl⟩ := mem_updateWorker hu
      have := hInv1.fresh v hv
      by_cases hc : v.id = wid
      · rw [if_pos hc]
        exact this
      · rw [if_neg hc]
        exact this
    · intro u hu hm
      by_cases hc : u.id = wid
      · have := updateWorker_of_id
          (fun v => (rfl :
            ({ v with markedForTermination := true } : WorkerMetadata).id = v.id))
          hInv1.nodupIds hfind1 hu hc
        rw [this]
        simp only
        exact hw1run
      · obtain ⟨v, hv, hu'⟩ := mem_updateWorker hu
        by_cases hc' : v.id = wid
        · rw [if_pos hc'] at hu'
          rw [hu'] at hc
          exact absurd hc' hc
        · rw [if_neg hc'] at hu'
          subst hu'
          exact hInv1.markedZero u hv hm
    · exact hInv1.settledSub
  · split
    · exact startIdleTimerFn_inv
        ⟨hInv1.bounds, hInv1.nodupIds, hInv1.fresh, hInv1.markedZero,
          hInv1.settledSub⟩
    · exact hInv1

theorem completeStep_inv {cfg : PoolConfig} {now : Int} {s : PoolState}
    {wid t : Nat} (hv : validCfg cfg) (hI : Inv cfg s) :
    Inv cfg (completeStep cfg now s wid t) := by
  cases hw : findWorker wid s.workers with
  | none => simp only [completeStep, hw]; exact hI
  | some w =>
    simp only [completeStep, hw]
    split
    · next hcond => exact nextLoop_inv hv (completeFinally_inv hI hw hcond.1 hcond.2)
    · exact hI

theorem staleCompleteStep_inv {cfg : PoolConfig} {now : Int} {s : PoolState}
    {wid t : Nat} (hv : validCfg cfg) (hI : Inv cfg s) :
    Inv cfg (staleCompleteStep cfg now s wid t) := by
  unfold staleCompleteStep
  split
  · exact hI
  · next hcond =>
    push_neg at hcond
    refine nextLoop_inv hv (startIdleTimerFn_inv
      ⟨hI.bounds, hI.nodupIds, hI.fresh, hI.markedZero, ?_⟩)
    intro t' ht'
    rcases List.mem_append.mp ht' with h' | h'
    · exact hI.settledSub t' h'
    · simp only [List.mem_singleton] at h'
      subst h'
      exact hcond.2

theorem terminateWorkerFn_inv {cfg : PoolConfig} {s : PoolState} {wid : Nat}
    (hI : Inv cfg s) : Inv cfg (terminateWorkerFn s wid) := by
  cases hfi : findIndexBy wid s.workers with
  | none => simp only [terminateWorkerFn, hfi]; exact hI
  | some idx =>
    cases hge : s.workers[idx]? with
    | none => simp only [terminateWorkerFn, hfi, hge]; exact hI
    | some w =>
      simp only [terminateWorkerFn, hfi, hge]
      split
      · exact hI
      · refine ⟨?_, ?_, ?_, ?_, hI.settledSub⟩
        · intro u hu
          exact hI.bounds u (List.mem_of_mem_eraseIdx hu)
        · exact List.Nodup.sublist
            (List.Sublist.map _ (List.eraseIdx_sublist s.workers idx)) hI.nodupIds
        · intro u hu
          exact hI.fresh u (List.mem_of_mem_eraseIdx hu)
        · intro u hu
          exact hI.markedZero u (List.mem_of_mem_eraseIdx hu)

theorem crashStep_inv {cfg : PoolConfig} {now : Int} {s : PoolState}
    {wid : Nat} (hv : validCfg cfg) (hI : Inv cfg s) :
    Inv cfg (crashStep cfg now s wid) := by
  have hI0 : Inv cfg { s with idle := s.idle.filter (fun x => x ≠ wid) } :=
    ⟨hI.bounds, hI.nodupIds, hI.fresh, hI.markedZero, hI.settledSub⟩
  cases hfi : findIndexBy wid s.workers with
  | none => simp only [crashStep, hfi]; exact hI0
  | some idx =>
    simp only [crashStep, hfi]
    refine nextLoop_inv hv ⟨?_, ?_, ?_, ?_, hI.settledSub⟩
    · intro u hu
      rcases List.mem_or_eq_of_mem_set hu with h' | h'
      · exact hI.bounds u h'
      · subst h'
        exact ⟨le_refl 0, le_trans zero_le_one hv.2⟩
    · rw [List.map_set]
      refine nodup_set_of_not_mem hI.nodupIds ?_
      intro hmem
      obtain ⟨v, hv', hvid⟩ := List.mem_map.mp hmem
      exact absurd hvid (Nat.ne_of_lt (hI.fresh v hv'))
    · intro u hu
      rcases List.mem_or_eq_of_mem_set hu with h' | h'
      · exact Nat.lt_succ_of_lt (hI.fresh u h')
      · subst h'
        exact Nat.lt_succ_self _
    · intro u hu hm
      rcases List.mem_or_eq_of_mem_set hu with h' | h'
      · exact hI.markedZero u h' hm
      · subst h'
        cases hm

theorem applyEvent_inv {cfg : PoolConfig} {s : PoolState} (hv : validCfg cfg)
    (hI : Inv cfg s) : ∀ e : PoolEvent, Inv cfg (applyEvent cfg s e)
  | .submit t now => by
    unfold applyEvent submitStep
    exact nextLoop_inv hv
      ⟨hI.bounds, hI.nodupIds, hI.fresh, hI.markedZero, fun t' ht' => hI.settledSub t' ht'⟩
  | .complete wid t now => completeStep_inv hv hI
  | .staleComplete wid t now => staleCompleteStep_inv hv hI
  | .timerFire wid => terminateWorkerFn_inv hI
  | .crash wid now => crashStep_inv hv hI
  | .terminateAllEv => by
    unfold applyEvent terminateAllStep
    exact ⟨by simp, by simp, by simp, by simp, hI.settledSub⟩

theorem runFrom_inv {cfg : PoolConfig} (hv : validCfg cfg) :
    ∀ (evs : List PoolEvent) (s : PoolState), Inv cfg s →
      Inv cfg (runFrom cfg s evs)
  | [], _, hI => hI
  | e :: evs, s, hI => runFrom_inv hv evs _ (applyEvent_inv hv hI e)

theorem initState_inv (cfg : PoolConfig) : Inv cfg initState :=
  ⟨by simp [initState], by simp [initState], by simp [initState],
    by simp [initState], by simp [initState]⟩

/-- Every reachable state of a validly configured pool satisfies the
invariant. -/
theorem reachable_inv {cfg : PoolConfig} {s : PoolState} (hv : validCfg cfg)
    (hr : Reachable cfg s) : Inv cfg s := by
  obtain ⟨evs, hevs⟩ := hr
  rw [← hevs]
  exact runFrom_inv hv evs initState (initState_inv cfg)

/-! Tracking of a label the pool has never seen: such a label can only enter
the ghost logs through a submission carrying it. -/

/-- A label that is neither queued nor recorded in either ghost log. -/
def Untouched (tt : Nat) (s : PoolState) : Prop :=
  tt ∉ s.queue ∧ tt ∉ s.dispatchLog ∧ tt ∉ s.settledLog

theorem nextLoopFuel_untouched {cfg : PoolConfig} {now : Int} {fuel : Nat}
    {s : PoolState} {tt : Nat} (h : Untouched tt s) :
    Untouched tt (nextLoopFuel cfg now fuel s) := by
  obtain ⟨k, h1, h2, h3⟩ := nextLoopFuel_fifo cfg now fuel s
  refine ⟨?_, ?_, ?_⟩
  · rw [h2]
    exact fun hm => h.1 (List.drop_subset _ _ hm)
  · rw [h1]
    intro hm
    rcases List.mem_append.mp hm with hm | hm
    · exact h.2.1 hm
    · exact h.1 (List.take_subset _ _ hm)
  · rw [h3]
    exact h.2.2

theorem nextLoop_untouched {cfg : PoolConfig} {now : Int} {s : PoolState}
    {tt : Nat} (h : Untouched tt s) : Untouched tt (nextLoop cfg now s) :=
  nextLoopFuel_untouched h

theorem completeFinally_fields (cfg : PoolConfig) (now : Int) (s : PoolState)
    (wid t : Nat) (w : WorkerMetadata) :
    (completeFinally cfg now s wid t w).queue = s.queue ∧
    (completeFinally cfg now s wid t w).dispatchLog = s.dispatchLog ∧
    (completeFinally cfg now s wid t w).settledLog = s.settledLog ++ [t] := by
  simp only [completeFinally]
  split
  · exact ⟨rfl, rfl, rfl⟩
  · split
    · exact ⟨rfl, rfl, rfl⟩
    · exact ⟨rfl, rfl, rfl⟩

theorem terminateWorkerFn_fields (s : PoolState) (wid : Nat) :
    (terminateWorkerFn s wid).queue = s.queue ∧
    (terminateWorkerFn s wid).dispatchLog = s.dispatchLog ∧
    (terminateWorkerFn s wid).settledLog = s.settledLog ∧
    (terminateWorkerFn s wid).nextWorkerId = s.nextWorkerId := by
  cases hfi : findIndexBy wid s.workers with
  | none => simp [terminateWorkerFn, hfi]
  | some idx =>
    cases hge : s.workers[idx]? with
    | none => simp [terminateWorkerFn, hfi, hge]
    | some w =>
      simp only [terminateWorkerFn, hfi, hge]
      split
      · exact ⟨rfl, rfl, rfl, rfl⟩
      · exact ⟨rfl, rfl, rfl, rfl⟩

/-- One coordinator event that does not submit the label `tt` cannot queue,
dispatch or settle `tt`. -/
theorem applyEvent_untouched {cfg : PoolConfig} {s : PoolState} {tt : Nat}
    (e : PoolEvent) (h : Untouched tt s) (he : submitLabel e ≠ some tt) :
    Untouched tt (applyEvent cfg s e) := by
  cases e with
  | submit t now =>
    have htt : t ≠ tt := fun hh => he (by rw [← hh]; rfl)
    refine nextLoopFuel_untouched ⟨?_, h.2.1, h.2.2⟩
    intro hm
    rcases List.mem_append.mp hm with hm | hm
    · exact h.1 hm
    · simp only [List.mem_singleton] at hm
      exact htt hm.symm
  | complete wid t now =>
    cases hw : findWorker wid s.workers with
    | none => simpa only [applyEvent, completeStep, hw] using h
    | some w =>
      simp only [applyEvent, completeStep, hw]
      split
      · next hcond =>
        obtain ⟨hq, hd, hs⟩ := completeFinally_fields cfg now s wid t w
        refine nextLoop_untouched ⟨?_, ?_, ?_⟩
        · rw [hq]
          exact h.1
        · rw [hd]
          exact h.2.1
        · rw [hs]
          intro hm
          rcases List.mem_append.mp hm with hm | hm
          · exact h.2.2 hm
          · simp only [List.mem_singleton] at hm
            subst hm
            exact h.2.1 hcond.2
      · exact h
  | staleComplete wid t now =>
    by_cases hg : (findWorker wid s.workers).isSome = true ∨ t ∉ s.dispatchLog
    · simpa only [applyEvent, staleCompleteStep, if_pos hg] using h
    · simp only [applyEvent, staleCompleteStep, if_neg hg]
      push_neg at hg
      refine nextLoop_untouched ⟨h.1, h.2.1, ?_⟩
      intro hm
      rcases List.mem_append.mp hm with hm | hm
      · exact h.2.2 hm
      · simp only [List.mem_singleton] at hm
        subst hm
        exact h.2.1 hg.2
  | timerFire wid =>
    obtain ⟨hq, hd, hs, _⟩ := terminateWorkerFn_fields s wid
    show Untouched tt (terminateWorkerFn s wid)
    refine ⟨?_, ?_, ?_⟩
    · rw [hq]
      exact h.1
    · rw [hd]
      exact h.2.1
    · rw [hs]
      exact h.2.2
  | crash wid now =>
    cases hfi : findIndexBy wid s.workers with
    | none =>
      simp only [applyEvent, crashStep, hfi]
      exact h
    | some idx =>
      simp only [applyEvent, crashStep, hfi]
      exact nextLoop_untouched ⟨h.1, h.2.1, h.2.2⟩
  | terminateAllEv =>
    exact ⟨List.not_mem_nil tt, h.2.1, h.2.2⟩

/-- Running any number of events none of which submits `tt` keeps `tt`
untouched: in particular the pool never settles it. -/
theorem runFrom_untouched {cfg : PoolConfig} {tt : Nat} :
    ∀ (evs : List PoolEvent) (s : PoolState), Untouched tt s →
      (∀ e ∈ evs, submitLabel e ≠ some tt) →
      Untouched tt (runFrom cfg s evs)
  | [], _, h, _ => h
  | e :: evs, s, h, he =>
    runFrom_untouched evs _
      (applyEvent_untouched e h (he e (List.mem_cons_self _ _)))
      (fun e' he' => he e' (List.mem_cons_of_mem _ he'))

/-! Adequate capacity: with enough creation headroom the dispatch loop
drains the whole queue in order. -/

theorem nextLoopFuel_full (cfg : PoolConfig) (now : Int) :
    ∀ (fuel : Nat) (s : PoolState), s.queue.length ≤ fuel →
      (s.workers.length : Int) + (s.queue.length : Int) ≤ cfg.size →
      (nextLoopFuel cfg now fuel s).queue = [] ∧
      (nextLoopFuel cfg now fuel s).dispatchLog = s.dispatchLog ++ s.queue
  | 0, s, hf, _ => by
    have hnil : s.queue = [] := List.eq_nil_of_length_eq_zero (Nat.le_zero.mp hf)
    rw [nextLoopFuel]
    exact ⟨hnil, by rw [hnil, List.append_nil]⟩
  | fuel + 1, s, hf, hcap => by
    rw [nextLoopFuel]
    cases hq : s.queue with
    | nil =>
      refine ⟨hq, ?_⟩
      show s.dispatchLog = s.dispatchLog ++ ([] : List Nat)
      rw [List.append_nil]
    | cons t rest =>
      cases hg : getAvailableWorker cfg now s with
      | mk o s1 =>
        cases o with
        | none =>
          exfalso
          obtain ⟨_, hnlt, _⟩ := getAvailableWorker_eq_none hg
          apply hnlt
          rw [hq] at hcap
          simp only [List.length_cons] at hcap
          push_cast at hcap
          omega
        | some wid =>
          rw [hq] at hf hcap
          simp only [List.length_cons] at hf hcap
          have hlen : (dispatchTask s1 wid t rest).queue.length ≤ fuel := by
            rw [dispatchTask_queue]
            omega
          have hwlen : (s1.workers.length : Int) ≤ (s.workers.length : Int) + 1 := by
            rcases getAvailableWorker_eq_some hg with ⟨w, _, _, rfl⟩ | ⟨_, _, _, rfl⟩
            · omega
            · simp only [List.length_append, List.length_cons, List.length_nil]
              push_cast
              omega
          have hcap' : ((dispatchTask s1 wid t rest).workers.length : Int) +
              ((dispatchTask s1 wid t rest).queue.length : Int) ≤ cfg.size := by
            rw [dispatchTask_queue, dispatchTask_workers, updateWorker_length]
            push_cast at hcap ⊢
            omega
          obtain ⟨hq1, hd1⟩ := nextLoopFuel_full cfg now fuel
            (dispatchTask s1 wid t rest) hlen hcap'
          obtain ⟨hfq, hfd, _, _, _⟩ := getAvailableWorker_frame hg
          refine ⟨hq1, ?_⟩
          rw [hd1, dispatchTask_dispatchLog, dispatchTask_queue, hfd,
            List.append_assoc]
          rfl

/-! The linear scan of `_getAvailableWorker` is the first-match search the
specification describes. -/

theorem findReusable_eq_find (cfg : PoolConfig) :
    ∀ ws : List WorkerMetadata, findReusable cfg ws =
      ws.find? (fun w => decide (w.runningTasks < cfg.maxConcurrentTasksPerWorker)
        && !w.markedForTermination)
  | [] => rfl
  | w :: ws => by
    by_cases hc : w.runningTasks < cfg.maxConcurrentTasksPerWorker ∧
        w.markedForTermination = false
    · rw [findReusable, if_pos hc,
        List.find?_cons_of_pos _ (by simp [hc.1, hc.2])]
    · rw [findReusable, if_neg hc,
        List.find?_cons_of_neg _ (by simpa using fun h1 h2 => hc ⟨h1, h2⟩),
        findReusable_eq_find cfg ws]

/-- Availability as the claim words it: units that can accept another
concurrent task and are not marked for termination, plus unused
unit-creation headroom. Stated from the specification, to be compared with
`getStats` as implemented. -/
def claimedAvailable (cfg : PoolConfig) (s : PoolState) : Int :=
  ((s.workers.filter (fun w =>
      decide (w.runningTasks < cfg.maxConcurrentTasksPerWorker)
        && !w.markedForTermination)).length : Int)
    + (cfg.size - (s.workers.length : Int))

theorem getStats_available (cfg : PoolConfig) (s : PoolState) :
    (getStats cfg s).available =
      ((s.workers.filter (fun w =>
        decide (w.runningTasks < cfg.maxConcurrentTasksPerWorker))).length : Int)
        + (cfg.size - (s.workers.length : Int)) := rfl

theorem length_filter_split {α : Type} (p m pm : α → Bool)
    (hpm : ∀ a, pm a = (p a && !(m a))) :
    ∀ l : List α, (∀ a ∈ l, m a = true → p a = true) →
      (l.filter p).length = (l.filter pm).length + (l.filter m).length
  | [], _ => rfl
  | a :: l, h => by
    have ht := length_filter_split p m pm hpm l
      (fun b hb => h b (List.mem_cons_of_mem _ hb))
    by_cases hm : m a = true
    · have hp := h a (List.mem_cons_self _ _) hm
      rw [List.filter_cons_of_pos hp,
        List.filter_cons_of_neg (by simp [hpm, hp, hm]),
        List.filter_cons_of_pos hm]
      simp only [List.length_cons]
      omega
    · simp only [Bool.not_eq_true] at hm
      by_cases hp : p a = true
      · rw [List.filter_cons_of_pos hp,
          List.filter_cons_of_pos (by simp [hpm, hp, hm]),
          List.filter_cons_of_neg (by simp [hm])]
        simp only [List.length_cons]
        omega
      · simp only [Bool.not_eq_true] at hp
        rw [List.filter_cons_of_neg (by simp [hp]),
          List.filter_cons_of_neg (by simp [hpm, hp]),
          List.filter_cons_of_neg (by simp [hm])]
        exact ht

/-! Claim theorems. -/

/-- Selection rule exactly as the claim words it: the first worker in
registry order below the concurrency ceiling and not marked for
termination; otherwise lazy creation while below `size`; otherwise none. -/
def getAvailableWorkerSpec (cfg : PoolConfig) (now : Int) (s : PoolState) :
    Option Nat × PoolState :=
  match s.workers.find? (fun w =>
      decide (w.runningTasks < cfg.maxConcurrentTasksPerWorker)
        && !w.markedForTermination) with
  | some w => (some w.id, s)
  | none =>
    if (s.workers.length : Int) < cfg.size then
      (some s.nextWorkerId,
        { s with workers := s.workers ++ [mkWorkerMetadata s.nextWorkerId now],
                 nextWorkerId := s.nextWorkerId + 1 })
    else (none, s)

/-- C1: worker selection follows the exact precedence: first worker in
registry order with `runningTasks` strictly below the ceiling and not
marked for termination; otherwise lazily create a worker carrying the next
unique id when the live count is below `size`; otherwise select no worker,
and the scheduling pass leaves the state (in particular the head task of
the queue) unchanged. -/
theorem claim1_selection_precedence (cfg : PoolConfig) (now : Int) (s : PoolState) :
    getAvailableWorker cfg now s = getAvailableWorkerSpec cfg now s ∧
    ((getAvailableWorker cfg now s).1 = none → nextLoop cfg now s = s) := by
  constructor
  · unfold getAvailableWorker getAvailableWorkerSpec
    rw [findReusable_eq_find]
  · intro hnone
    cases hg : getAvailableWorker cfg now s with
    | mk o s1 =>
      rw [hg] at hnone
      simp only at hnone
      subst hnone
      have hfuel : ∀ fuel, nextLoopFuel cfg now fuel s = s := by
        intro fuel
        cases fuel with
        | zero => rfl
        | succ n =>
          rw [nextLoopFuel]
          cases hq : s.queue with
          | nil => rfl
          | cons t rest => rw [hg]
      exact hfuel s.queue.length

def cfgW1 : PoolConfig :=
  { size := 0, workerIdleTimeoutMs := none, maxTasksPerWorker := none,
    maxWorkerLifetimeMs := none, maxConcurrentTasksPerWorker := 1 }

def sW1 : PoolState := { initState with queue := [42] }

theorem claim1_selection_precedence_witness :
    getAvailableWorker cfgW1 0 sW1 = getAvailableWorkerSpec cfgW1 0 sW1 ∧
      nextLoop cfgW1 0 sW1 = sW1 :=
  ⟨(claim1_selection_precedence cfgW1 0 sW1).1,
    (claim1_selection_precedence cfgW1 0 sW1).2 (by decide)⟩

/-- C2: in every reachable state every registry worker satisfies
`0 ≤ runningTasks ≤ maxConcurrentTasksPerWorker`; a worker is selected for
dispatch only while strictly below the ceiling; dispatch increments the
selected worker's `runningTasks` by exactly 1, and a task completion
decrements the worker's `runningTasks` by exactly 1. -/
theorem claim2_running_task_bounds (cfg : PoolConfig) (s : PoolState)
    (hv : validCfg cfg) (hr : Reachable cfg s) :
    (∀ w ∈ s.workers,
        0 ≤ w.runningTasks ∧ w.runningTasks ≤ cfg.maxConcurrentTasksPerWorker) ∧
    (∀ (now : Int) (wid : Nat) (s1 : PoolState),
        getAvailableWorker cfg now s = (some wid, s1) →
        ∃ w ∈ s1.workers, w.id = wid ∧
          w.runningTasks < cfg.maxConcurrentTasksPerWorker) ∧
    (∀ (s1 : PoolState) (wid t : Nat) (rest : List Nat) (w : WorkerMetadata),
        findWorker wid s1.workers = some w →
        findWorker wid (dispatchTask s1 wid t rest).workers =
          some { w with runningTasks := w.runningTasks + 1 }) ∧
    (∀ (now : Int) (wid t : Nat) (w : WorkerMetadata),
        findWorker wid s.workers = some w → 1 ≤ w.runningTasks →
        t ∈ s.dispatchLog →
        ∃ w2, findWorker wid (completeFinally cfg now s wid t w).workers = some w2 ∧
          w2.runningTasks = w.runningTasks - 1) := by
  have hI := reachable_inv hv hr
  refine ⟨hI.bounds, ?_, ?_, ?_⟩
  · intro now wid s1 hg
    obtain ⟨_, _, w, hw, hid, hlt, _⟩ := getAvailableWorker_props hv hI hg
    exact ⟨w, hw, hid, hlt⟩
  · intro s1 wid t rest w hw
    rw [dispatchTask_workers,
      findWorker_updateWorker s1.workers wid
        (fun u => { u with runningTasks := u.runningTasks + 1 }) (fun _ => rfl),
      hw]
    rfl
  · intro now wid t w hw hrun ht
    have hdec : ∀ v : WorkerMetadata,
        ({ v with runningTasks := v.runningTasks - 1,
                  taskCount := v.taskCount + 1 } : WorkerMetadata).id = v.id :=
      fun _ => rfl
    have hfind1 : findWorker wid (updateWorker s.workers wid
        (fun u => { u with runningTasks := u.runningTasks - 1,
                           taskCount := u.taskCount + 1 })) =
        some { w with runningTasks := w.runningTasks - 1,
                      taskCount := w.taskCount + 1 } := by
      rw [findWorker_updateWorker s.workers wid _ hdec, hw]
      rfl
    have hfind2 : findWorker wid (updateWorker (updateWorker s.workers wid
        (fun u => { u with runningTasks := u.runningTasks - 1,
                           taskCount := u.taskCount + 1 })) wid
        (fun u => { u with markedForTermination := true })) =
        some { w with runningTasks := w.runningTasks - 1,
                      taskCount := w.taskCount + 1,
                      markedForTermination := true } := by
      rw [findWorker_updateWorker _ wid
        (fun u => { u with markedForTermination := true }) (fun _ => rfl), hfind1]
      rfl
    simp only [completeFinally]
    split
    · exact ⟨_, hfind2, rfl⟩
    · split
      · exact ⟨_, hfind1, rfl⟩
      · exact ⟨_, hfind1, rfl⟩

def cfgW2 : PoolConfig :=
  { size := 1, workerIdleTimeoutMs := none, maxTasksPerWorker := none,
    maxWorkerLifetimeMs := none, maxConcurrentTasksPerWorker := 1 }

def sW2 : PoolState := runFrom cfgW2 initState [.submit 0 0]

def wW2 : WorkerMetadata :=
  { id := 0, taskCount := 0, createdAt := 0, runningTasks := 1,
    markedForTermination := false }

theorem claim2_running_task_bounds_witness :
    0 ≤ wW2.runningTasks ∧ wW2.runningTasks ≤ cfgW2.maxConcurrentTasksPerWorker :=
  (claim2_running_task_bounds cfgW2 sW2 (by constructor <;> decide)
    ⟨[.submit 0 0], rfl⟩).1 wW2 (by decide)

/-- C3: a submission appends one task to the tail of the queue and every
dispatch removes the task at the head, so the scheduler hands out some
prefix of the submission order; with adequate capacity the whole queue is
dispatched, in exactly submission order. -/
theorem claim3_fifo_dispatch (cfg : PoolConfig) (now : Int) (s : PoolState)
    (t : Nat) :
    (∃ k, (submitStep cfg now s t).dispatchLog =
        s.dispatchLog ++ (s.queue ++ [t]).take k ∧
      (submitStep cfg now s t).queue = (s.queue ++ [t]).drop k) ∧
    ((s.workers.length : Int) + (s.queue.length : Int) + 1 ≤ cfg.size →
      (submitStep cfg now s t).dispatchLog = s.dispatchLog ++ s.queue ++ [t] ∧
      (submitStep cfg now s t).queue = []) := by
  constructor
  · obtain ⟨k, h1, h2, _⟩ :=
      nextLoop_fifo cfg now { s with queue := s.queue ++ [t] }
    exact ⟨k, h1, h2⟩
  · intro hcap
    have hcap' : (({ s with queue := s.queue ++ [t] } : PoolState).workers.length : Int)
        + (({ s with queue := s.queue ++ [t] } : PoolState).queue.length : Int)
        ≤ cfg.size := by
      show (s.workers.length : Int) + ((s.queue ++ [t]).length : Int) ≤ cfg.size
      rw [List.length_append]
      simp only [List.length_singleton]
      push_cast
      push_cast at hcap
      omega
    obtain ⟨h1, h2⟩ := nextLoopFuel_full cfg now
      ({ s with queue := s.queue ++ [t] } : PoolState).queue.length
      { s with queue := s.queue ++ [t] } (le_refl _) hcap'
    exact ⟨h2.trans (List.append_assoc s.dispatchLog s.queue [t]).symm, h1⟩

def cfgW3 : PoolConfig :=
  { size := 3, workerIdleTimeoutMs := none, maxTasksPerWorker := none,
    maxWorkerLifetimeMs := none, maxConcurrentTasksPerWorker := 1 }

def sW3 : PoolState := runFrom cfgW3 initState [.submit 0 0, .submit 1 0]

theorem claim3_fifo_dispatch_witness :
    (submitStep cfgW3 0 sW3 2).dispatchLog = sW3.dispatchLog ++ sW3.queue ++ [2] ∧
    (submitStep cfgW3 0 sW3 2).queue = [] :=
  (claim3_fifo_dispatch cfgW3 0 sW3 2).2 (by decide)

/-- A configuration exhibiting a worker that is marked for termination but
still in the registry: `maxTasksPerWorker = 1`, so the single worker is
marked right after its first task completes, and its deferred destruction
timer has not fired yet. -/
def cfgC4 : PoolConfig :=
  { size := 1, workerIdleTimeoutMs := none, maxTasksPerWorker := some 1,
    maxWorkerLifetimeMs := none, maxConcurrentTasksPerWorker := 1 }

def sC4 : PoolState := runFrom cfgC4 initState [.submit 0 0, .complete 0 0 0]

/-- C4 (counterexample): in the reachable state `sC4` the registry holds one
worker with `runningTasks = 0` that is marked for termination; `getStats`
reports `available = 1`, while the claimed formula (which excludes workers
marked for termination) yields `0`. -/
theorem claim4_counterexample :
    validCfg cfgC4 ∧
    runFrom cfgC4 initState [.submit 0 0, .complete 0 0 0] = sC4 ∧
    (∃ w ∈ sC4.workers, w.markedForTermination = true ∧ w.runningTasks = 0) ∧
    (getStats cfgC4 sC4).available = 1 ∧
    claimedAvailable cfgC4 sC4 = 0 :=
  ⟨by decide, rfl, by decide, by decide, by decide⟩

/-- C4 (amended): `available` equals the number of units with
`runningTasks` strictly below the ceiling — irrespective of the
termination mark — plus the unit-creation headroom; equivalently, it
exceeds the claimed marked-excluding count by exactly the number of
marked workers. -/
theorem claim4_available_counts_marked (cfg : PoolConfig) (s : PoolState)
    (hv : validCfg cfg) (hr : Reachable cfg s) :
    (getStats cfg s).available =
      claimedAvailable cfg s +
        ((s.workers.filter (fun w => w.markedForTermination)).length : Int) := by
  have hI := reachable_inv hv hr
  have hmp : ∀ w ∈ s.workers, w.markedForTermination = true →
      decide (w.runningTasks < cfg.maxConcurrentTasksPerWorker) = true := by
    intro w hw hm
    have h0 := hI.markedZero w hw hm
    have h1 := hv.2
    simp only [decide_eq_true_eq]
    omega
  have hsplit := length_filter_split
    (fun w => decide (w.runningTasks < cfg.maxConcurrentTasksPerWorker))
    (fun w => w.markedForTermination)
    (fun w => decide (w.runningTasks < cfg.maxConcurrentTasksPerWorker)
      && !w.markedForTermination)
    (fun _ => rfl) s.workers hmp
  rw [getStats_available]
  unfold claimedAvailable
  omega

theorem claim4_available_counts_marked_witness :
    (getStats cfgC4 sC4).available =
      claimedAvailable cfgC4 sC4 +
        ((sC4.workers.filter (fun w => w.markedForTermination)).length : Int) :=
  claim4_available_counts_marked cfgC4 sC4 (by decide)
    ⟨[.submit 0 0, .complete 0 0 0], rfl⟩

/-- Agreement of the index search and the id search: both miss together, or
the index points at exactly the worker the id search returns. -/
theorem findIndexBy_getElem : ∀ (ws : List WorkerMetadata) (wid : Nat),
    (findIndexBy wid ws = none ∧ findWorker wid ws = none) ∨
    (∃ i w, findIndexBy wid ws = some i ∧ ws[i]? = some w ∧
      findWorker wid ws = some w)
  | [], _ => Or.inl ⟨rfl, rfl⟩
  | u :: ws, wid => by
    by_cases hc : u.id = wid
    · exact Or.inr ⟨0, u, by rw [findIndexBy, if_pos hc], by simp,
        by rw [findWorker, if_pos hc]⟩
    · rcases findIndexBy_getElem ws wid with ⟨h1, h2⟩ | ⟨i, w, h1, h2, h3⟩
      · refine Or.inl ⟨?_, by rw [findWorker, if_neg hc, h2]⟩
        rw [findIndexBy, if_neg hc, h1]
        rfl
      · refine Or.inr ⟨i + 1, w, ?_, by simpa using h2,
          by rw [findWorker, if_neg hc, h3]⟩
        rw [findIndexBy, if_neg hc, h1]
        rfl

/-- C5: a worker marked for termination is never selected for a new
dispatch; `_terminateWorker` on a worker with running tasks leaves the
whole pool state unchanged (so also on any worker whose `runningTasks` is
nonzero, by the reachable bounds); and the worker is spliced out of the
registry exactly when its `runningTasks` is 0. -/
theorem claim5_marked_never_dispatched (cfg : PoolConfig) (s : PoolState)
    (hv : validCfg cfg) (hr : Reachable cfg s) :
    (∀ (now : Int) (wid : Nat) (s1 : PoolState),
        getAvailableWorker cfg now s = (some wid, s1) →
        ∃ w ∈ s1.workers, w.id = wid ∧ w.markedForTermination = false) ∧
    (∀ (wid : Nat) (w : WorkerMetadata),
        findWorker wid s.workers = some w → 0 < w.runningTasks →
        terminateWorkerFn s wid = s) ∧
    (∀ (wid : Nat) (w : WorkerMetadata),
        findWorker wid s.workers = some w → w.runningTasks ≠ 0 →
        terminateWorkerFn s wid = s) ∧
    (∀ (wid idx : Nat) (w : WorkerMetadata),
        findIndexBy wid s.workers = some idx → s.workers[idx]? = some w →
        w.runningTasks = 0 →
        (terminateWorkerFn s wid).workers = s.workers.eraseIdx idx ∧
        (terminateWorkerFn s wid).idle = s.idle.filter (fun x => x ≠ wid) ∧
        (terminateWorkerFn s wid).idleTimers =
          s.idleTimers.filter (fun x => x ≠ wid)) := by
  have hI := reachable_inv hv hr
  have hstop : ∀ (wid : Nat) (w : WorkerMetadata),
      findWorker wid s.workers = some w → 0 < w.runningTasks →
      terminateWorkerFn s wid = s := by
    intro wid w hw hrun
    rcases findIndexBy_getElem s.workers wid with ⟨_, h2⟩ | ⟨i, w', h1, h2, h3⟩
    · rw [h2] at hw
      cases hw
    · rw [h3] at hw
      cases hw
      simp only [terminateWorkerFn, h1, h2]
      rw [if_pos hrun]
  refine ⟨?_, hstop, ?_, ?_⟩
  · intro now wid s1 hg
    obtain ⟨_, _, w, hwmem, hid, _, hmk⟩ := getAvailableWorker_props hv hI hg
    exact ⟨w, hwmem, hid, hmk⟩
  · intro wid w hw hne
    have h0 := (hI.bounds w (findWorker_some hw).1).1
    exact hstop wid w hw (by omega)
  · intro wid idx w h1 h2 h0
    simp only [terminateWorkerFn, h1, h2]
    rw [if_neg (by omega)]
    exact ⟨rfl, rfl, rfl⟩

def cfgW5 : PoolConfig :=
  { size := 1, workerIdleTimeoutMs := none, maxTasksPerWorker := none,
    maxWorkerLifetimeMs := none, maxConcurrentTasksPerWorker := 1 }

def sW5 : PoolState := runFrom cfgW5 initState [.submit 0 0]

def wW5 : WorkerMetadata :=
  { id := 0, taskCount := 0, createdAt := 0, runningTasks := 1,
    markedForTermination := false }

theorem claim5_marked_never_dispatched_witness :
    terminateWorkerFn sW5 0 = sW5 :=
  (claim5_marked_never_dispatched cfgW5 sW5 (by decide)
    ⟨[.submit 0 0], rfl⟩).2.1 0 wW5 (by decide) (by decide)

/-- C6: a crash signal on a live worker removes the failed worker from the
idle set, overwrites its registry slot with a freshly created worker whose
id is the (previously unused) next unique id, pushes the replacement on the
idle set, and re-runs the scheduler loop; the slot replacement leaves the
live worker count unchanged. -/
theorem claim6_crash_replacement (cfg : PoolConfig) (now : Int) (s : PoolState)
    (wid idx : Nat) (hv : validCfg cfg) (hr : Reachable cfg s)
    (hidx : findIndexBy wid s.workers = some idx) :
    crashStep cfg now s wid =
      nextLoop cfg now
        { s with idle := s.idle.filter (fun x => x ≠ wid) ++ [s.nextWorkerId],
                 workers := s.workers.set idx (mkWorkerMetadata s.nextWorkerId now),
                 nextWorkerId := s.nextWorkerId + 1 } ∧
    wid ∉ s.idle.filter (fun x => x ≠ wid) ∧
    s.nextWorkerId ∈ s.idle.filter (fun x => x ≠ wid) ++ [s.nextWorkerId] ∧
    (s.workers.set idx (mkWorkerMetadata s.nextWorkerId now))[idx]? =
      some (mkWorkerMetadata s.nextWorkerId now) ∧
    (s.workers.set idx (mkWorkerMetadata s.nextWorkerId now)).length =
      s.workers.length ∧
    s.nextWorkerId ∉ s.workers.map (fun w => w.id) := by
  have hI := reachable_inv hv hr
  obtain ⟨w, hw, _⟩ := findIndexBy_some hidx
  have hlt : idx < s.workers.length := by
    rcases List.getElem?_eq_some.mp hw with ⟨h, _⟩
    exact h
  refine ⟨?_, ?_, ?_, ?_, List.length_set s.workers idx _, ?_⟩
  · simp only [crashStep, hidx]
  · simp
  · simp
  · exact List.getElem?_set_self (by simpa using hlt)
  · intro hmem
    obtain ⟨v, hv', hvid⟩ := List.mem_map.mp hmem
    exact absurd hvid (Nat.ne_of_lt (hI.fresh v hv'))

def cfgW6 : PoolConfig :=
  { size := 1, workerIdleTimeoutMs := none, maxTasksPerWorker := none,
    maxWorkerLifetimeMs := none, maxConcurrentTasksPerWorker := 1 }

def sW6 : PoolState := runFrom cfgW6 initState [.submit 0 0]

theorem claim6_crash_replacement_witness :
    (sW6.workers.set 0 (mkWorkerMetadata sW6.nextWorkerId 0)).length =
      sW6.workers.length ∧
    sW6.nextWorkerId ∉ sW6.workers.map (fun w => w.id) :=
  (claim6_crash_replacement cfgW6 0 sW6 0 0 (by decide)
    ⟨[.submit 0 0], rfl⟩ (by decide)).2.2.2.2

/-- C7: `terminateAll` clears every live worker regardless of running
tasks, empties the idle set and the queue, cancels all pending idle timers,
and every task still queued at that moment is abandoned: no sequence of
later events that does not resubmit its label ever settles it. -/
theorem claim7_terminate_all_abandons (cfg : PoolConfig) (s : PoolState)
    (hv : validCfg cfg) (hr : Reachable cfg s) :
    (terminateAllStep s).workers = [] ∧
    (terminateAllStep s).idle = [] ∧
    (terminateAllStep s).queue = [] ∧
    (terminateAllStep s).idleTimers = [] ∧
    (∀ tt ∈ s.queue, tt ∉ s.dispatchLog →
      ∀ evs : List PoolEvent, (∀ e ∈ evs, submitLabel e ≠ some tt) →
        tt ∉ (runFrom cfg (terminateAllStep s) evs).settledLog) := by
  have hI := reachable_inv hv hr
  refine ⟨rfl, rfl, rfl, rfl, ?_⟩
  intro tt _ htd evs hevs
  have hU : Untouched tt (terminateAllStep s) :=
    ⟨List.not_mem_nil tt, htd, fun hs => htd (hI.settledSub tt hs)⟩
  exact (runFrom_untouched evs _ hU hevs).2.2

def cfgW7 : PoolConfig :=
  { size := 1, workerIdleTimeoutMs := none, maxTasksPerWorker := none,
    maxWorkerLifetimeMs := none, maxConcurrentTasksPerWorker := 1 }

def sW7 : PoolState := runFrom cfgW7 initState [.submit 5 0, .submit 7 0]

theorem claim7_terminate_all_abandons_witness :
    (terminateAllStep sW7).workers = [] ∧
    7 ∉ (runFrom cfgW7 (terminateAllStep sW7) [.submit 9 0]).settledLog := by
  obtain ⟨h1, _, _, _, h5⟩ := claim7_terminate_all_abandons cfgW7 sW7
    (by decide) ⟨[.submit 5 0, .submit 7 0], rfl⟩
  exact ⟨h1, h5 7 (by decide) (by decide) [.submit 9 0] (by decide)⟩

/-- C8: calling `terminateAll` twice is the same as calling it once — the
second call is a no-op on the already-cleared state — and after it the pool
has zero live workers, an empty queue and no pending idle timers. -/
theorem claim8_terminate_all_idempotent (s : PoolState) :
    terminateAllStep (terminateAllStep s) = terminateAllStep s ∧
    (terminateAllStep s).workers = [] ∧
    (terminateAllStep s).queue = [] ∧
    (terminateAllStep s).idleTimers = [] :=
  ⟨rfl, rfl, rfl, rfl⟩

/-- C9: construction succeeds exactly when the configured size is at least
1 and the concurrency ceiling (defaulting to 1 when unset) is at least 1;
every accepted configuration starts from the empty initial state — zero
workers, creation is strictly lazy. -/
theorem claim9_constructor_validation (o : WorkerPoolOptions) :
    ((∃ r, mkWorkerPool o = .ok r) ↔
      (1 ≤ o.size ∧ 1 ≤ o.maxConcurrentTasksPerWorker.getD 1)) ∧
    (∀ (cfg : PoolConfig) (s0 : PoolState), mkWorkerPool o = .ok (cfg, s0) →
      s0 = initState ∧ s0.workers = [] ∧ cfg.size = o.size ∧
      cfg.maxConcurrentTasksPerWorker = o.maxConcurrentTasksPerWorker.getD 1) := by
  simp only [mkWorkerPool]
  by_cases h1 : o.size < 1
  · rw [if_pos h1]
    refine ⟨⟨?_, ?_⟩, ?_⟩
    · rintro ⟨r, hr⟩
      exact Except.noConfusion hr
    · intro h
      exact absurd h1 (by omega)
    · intro cfg s0 h
      exact Except.noConfusion h
  · rw [if_neg h1]
    by_cases h2 : o.maxConcurrentTasksPerWorker.getD 1 < 1
    · rw [if_pos h2]
      refine ⟨⟨?_, ?_⟩, ?_⟩
      · rintro ⟨r, hr⟩
        exact Except.noConfusion hr
      · intro h
        exact absurd h2 (by omega)
      · intro cfg s0 h
        exact Except.noConfusion h
    · rw [if_neg h2]
      refine ⟨⟨fun _ => ⟨by omega, by omega⟩, fun _ => ⟨_, rfl⟩⟩, ?_⟩
      intro cfg s0 h
      simp only [Except.ok.injEq, Prod.mk.injEq] at h
      obtain ⟨hcfg, hs0⟩ := h
      subst hcfg
      subst hs0
      exact ⟨rfl, rfl, rfl, rfl⟩

def oW9 : WorkerPoolOptions :=
  { size := 2, workerIdleTimeoutMs := none, maxTasksPerWorker := none,
    maxWorkerLifetimeMs := none, maxConcurrentTasksPerWorker := none }

def cfgW9 : PoolConfig :=
  { size := 2, workerIdleTimeoutMs := none, maxTasksPerWorker := none,
    maxWorkerLifetimeMs := none, maxConcurrentTasksPerWorker := 1 }

theorem claim9_constructor_validation_witness :
    initState = initState ∧ initState.workers = [] ∧ cfgW9.size = oW9.size ∧
      cfgW9.maxConcurrentTasksPerWorker =
        oW9.maxConcurrentTasksPerWorker.getD 1 :=
  (claim9_constructor_validation oW9).2 cfgW9 initState (by rfl)

/-- C10: `terminateAll` preserves the id counter, so the pool stays usable:
the next id is one no pre-shutdown worker ever had, and a submission right
after shutdown is enqueued, lazily creates the fresh worker with that id,
and dispatches the task to it at once. -/
theorem claim10_usable_after_shutdown (cfg : PoolConfig) (s : PoolState)
    (t : Nat) (now : Int) (hv : validCfg cfg) (hr : Reachable cfg s) :
    (terminateAllStep s).nextWorkerId = s.nextWorkerId ∧
    s.nextWorkerId ∉ s.workers.map (fun w => w.id) ∧
    applyEvent cfg (terminateAllStep s) (.submit t now) =
      { workers := [{ id := s.nextWorkerId, taskCount := 0, createdAt := now,
                      runningTasks := 1, markedForTermination := false }],
        idle := [], queue := [], idleTimers := [],
        nextWorkerId := s.nextWorkerId + 1,
        dispatchLog := s.dispatchLog ++ [t],
        settledLog := s.settledLog } := by
  have hI := reachable_inv hv hr
  have h0 : (0 : Int) < cfg.size := by
    have := hv.1
    omega
  refine ⟨rfl, ?_, ?_⟩
  · intro hmem
    obtain ⟨v, hv', hvid⟩ := List.mem_map.mp hmem
    exact absurd hvid (Nat.ne_of_lt (hI.fresh v hv'))
  · show nextLoopFuel cfg now (0 + 1)
      { workers := [], idle := [], queue := [t], idleTimers := [],
        nextWorkerId := s.nextWorkerId, dispatchLog := s.dispatchLog,
        settledLog := s.settledLog } = _
    rw [nextLoopFuel]
    simp [getAvailableWorker, findReusable, dispatchTask, updateWorker,
      findWorker, mkWorkerMetadata, h0, nextLoopFuel]

def cfgW10 : PoolConfig :=
  { size := 1, workerIdleTimeoutMs := none, maxTasksPerWorker := none,
    maxWorkerLifetimeMs := none, maxConcurrentTasksPerWorker := 1 }

def sW10 : PoolState := runFrom cfgW10 initState [.submit 0 0]

theorem claim10_usable_after_shutdown_witness :
    applyEvent cfgW10 (terminateAllStep sW10) (.submit 3 0) =
      { workers := [{ id := sW10.nextWorkerId, taskCount := 0, createdAt := 0,
                      runningTasks := 1, markedForTermination := false }],
        idle := [], queue := [], idleTimers := [],
        nextWorkerId := sW10.nextWorkerId + 1,
        dispatchLog := sW10.dispatchLog ++ [3],
        settledLog := sW10.settledLog } :=
  (claim10_usable_after_shutdown cfgW10 sW10 3 0 (by decide)
    ⟨[.submit 0 0], rfl⟩).2.2

end WorkerPool
